import Mathlib

/-!
Verification development for the RustPageIndex repository.

This file gives a shallow embedding, in Lean 4, of the core of the
repository: the tree data model and TOC-to-tree builder (src/tree.rs),
the document/page model (src/document.rs), the search post-processing
pipeline (src/search.rs), the persistence layer (src/persistence.rs)
and the error type (src/error.rs).  Each definition mirrors one Rust
item; doc comments name the Rust source it embeds.

Modelling conventions:
- Rust usize is modelled as Nat (no arithmetic in the repository can
  overflow a 64-bit machine word on the inputs the theorems discuss,
  and the one subtraction that could underflow is explicitly guarded
  in the source, see TreeNode.page_span).
- Rust String is modelled as Lean String; character-level helpers work
  on List Char.  Rust byte indices coincide with character indices on
  ASCII data, which is all the repository's string heuristics inspect.
- Vec of TreeNode is modelled by TNList, a specialised list type, so
  that every recursive function over the tree is structurally
  recursive and kernel-reducible; TNList.toList recovers the ordinary
  list view used in theorem statements.
- serde_json::Value is modelled by the Json type below (numbers are
  modelled as Int; the float case of serde numbers behaves, for the
  functions embedded here, exactly like the catch-all case).
-/

/-- Character-list version of Rust str::trim (restricted to ASCII
whitespace, which is all that occurs in the data the claims discuss). -/
def listTrim (cs : List Char) : List Char :=
  ((cs.dropWhile Char.isWhitespace).reverse.dropWhile Char.isWhitespace).reverse

/-- Rust str::trim modelled on Lean strings. -/
def rustTrim (s : String) : String :=
  String.mk (listTrim s.toList)

/-- Rust str::to_lowercase, restricted to ASCII (the repository only
compares against the ASCII literals high and medium). -/
def rustToLower (s : String) : String :=
  String.mk (s.toList.map Char.toLower)

/-- Rust str::starts_with on character lists. -/
def listStartsWith (pat cs : List Char) : Bool :=
  pat.isPrefixOf cs

/-- Rust str parse into usize (usize::from_str) on a character list:
an optional leading plus sign followed by one or more ASCII digits.
Overflow is not modelled (Nat is unbounded). -/
def parseUsizeL (cs0 : List Char) : Option Nat :=
  let cs := match cs0 with
    | '+' :: r => r
    | r => r
  if cs.isEmpty then none
  else if cs.all Char.isDigit then
    some (cs.foldl (fun a c => 10 * a + (c.toNat - 48)) 0)
  else none

/-- Rust str parse into usize on a string. -/
def parseUsize (s : String) : Option Nat :=
  parseUsizeL s.toList

/-- Split a character list on a separator character (Rust str::split
with a char pattern: no segment merging, an empty input gives one empty
segment). -/
def splitOnChar (sep : Char) : List Char → List (List Char)
  | [] => [[]]
  | c :: cs =>
    if c = sep then [] :: splitOnChar sep cs
    else
      match splitOnChar sep cs with
      | [] => [[c]]
      | h :: t => (c :: h) :: t

/-- Rust str::lines: split on a newline character, dropping one final
empty segment when the string ends with a newline, and stripping one
trailing carriage return from each line. -/
def rustLines (s : String) : List String :=
  let parts := splitOnChar '\n' s.toList
  let parts := if parts.getLast? = some [] then parts.dropLast else parts
  parts.map (fun l =>
    if l.getLast? = some '\r' then String.mk l.dropLast else String.mk l)

mutual
/-- Model of serde_json::Value (src uses serde_json).  Numbers are
modelled as integers; see the file header. -/
inductive Json : Type where
  | null : Json
  | bool : Bool → Json
  | num : Int → Json
  | str : String → Json
  | arr : JsonList → Json
  | obj : JsonFields → Json
/-- List of JSON values (inlined so recursion over Json is structural). -/
inductive JsonList : Type where
  | nil : JsonList
  | cons : Json → JsonList → JsonList
/-- Field list of a JSON object, in serialization order. -/
inductive JsonFields : Type where
  | nil : JsonFields
  | cons : String → Json → JsonFields → JsonFields
end

/-- Lookup of a field in a JSON object, first occurrence wins (the
serializers in this file never emit duplicate keys). -/
def JsonFields.find : JsonFields → String → Option Json
  | .nil, _ => none
  | .cons k v tl, key => if k = key then some v else tl.find key

mutual
/-- Model of src/tree.rs TreeNode: title, structure, start_index,
end_index, nodes, summary, node_id, in source field order.  The field
named structure in Rust is the second argument (structure is a Lean
keyword, so the accessor below is called struct). -/
inductive TreeNode : Type where
  | mk : String → Option String → Nat → Nat → TNList → Option String →
      Option String → TreeNode
/-- Model of Vec of TreeNode (children lists and the root list). -/
inductive TNList : Type where
  | nil : TNList
  | cons : TreeNode → TNList → TNList
end

/-- Accessor for the TreeNode title field. -/
def TreeNode.title : TreeNode → String
  | .mk t _ _ _ _ _ _ => t

/-- Accessor for the TreeNode structure field. -/
def TreeNode.struct : TreeNode → Option String
  | .mk _ s _ _ _ _ _ => s

/-- Accessor for the TreeNode start_index field. -/
def TreeNode.start_index : TreeNode → Nat
  | .mk _ _ a _ _ _ _ => a

/-- Accessor for the TreeNode end_index field. -/
def TreeNode.end_index : TreeNode → Nat
  | .mk _ _ _ e _ _ _ => e

/-- Accessor for the TreeNode nodes (children) field. -/
def TreeNode.nodes : TreeNode → TNList
  | .mk _ _ _ _ ns _ _ => ns

/-- Accessor for the TreeNode summary field. -/
def TreeNode.summary : TreeNode → Option String
  | .mk _ _ _ _ _ sm _ => sm

/-- Accessor for the TreeNode node_id field. -/
def TreeNode.node_id : TreeNode → Option String
  | .mk _ _ _ _ _ _ i => i

/-- Model of TreeNode::new from src/tree.rs: empty children, no
structure, no summary, no node_id. -/
def TreeNode.new (title : String) (start_index end_index : Nat) : TreeNode :=
  .mk title none start_index end_index .nil none none

/-- Append one node at the end of a node list (Vec::push). -/
def TNList.push : TNList → TreeNode → TNList
  | .nil, n => .cons n .nil
  | .cons x tl, n => .cons x (tl.push n)

/-- Apply a function to the last element of a node list, if any
(Vec::last_mut followed by in-place mutation). -/
def TNList.modifyLast (f : TreeNode → TreeNode) : TNList → TNList
  | .nil => .nil
  | .cons x .nil => .cons (f x) .nil
  | .cons x (.cons y tl) => .cons x (TNList.modifyLast f (.cons y tl))

/-- Ordinary list view of a TNList. -/
def TNList.toList : TNList → List TreeNode
  | .nil => []
  | .cons x tl => x :: tl.toList

/-- Number of elements of a TNList. -/
def TNList.length : TNList → Nat
  | .nil => 0
  | .cons _ tl => tl.length + 1

/-- Model of TreeNode::add_child from src/tree.rs. -/
def TreeNode.add_child : TreeNode → TreeNode → TreeNode
  | .mk t s a e ns sm id, child => .mk t s a e (ns.push child) sm id

/-- Model of TreeNode::page_span from src/tree.rs: the guarded
subtraction end_index - start_index + 1, and 0 when the range is
inverted (the guard is what prevents usize underflow in the source). -/
def TreeNode.page_span (n : TreeNode) : Nat :=
  if n.end_index ≥ n.start_index then n.end_index - n.start_index + 1 else 0

/-- Model of src/tree.rs RawTocItem: structure, title, physical_index
(the serde_json::Value field that may hold an integer or a marker
string). -/
structure RawTocItem : Type where
  struct : Option String
  title : String
  physical_index : Option Json

/-- Strip every leading occurrence of the page marker pattern from a
character list (str::trim_start_matches with a string pattern strips
repeatedly).  The first argument is fuel, instantiated with the list
length, which bounds the number of strips. -/
def stripMarkerLoop : Nat → List Char → List Char
  | 0, cs => cs
  | fuel + 1, cs =>
    if listStartsWith ("<physical_index_".toList) cs then
      stripMarkerLoop fuel (cs.drop 16)
    else cs

/-- Rust trim_start_matches with the literal page-marker pattern, as
used in RawTocItem::get_page_number. -/
def trimStartMarker (s : String) : String :=
  String.mk (stripMarkerLoop s.toList.length s.toList)

/-- Rust trim_end_matches with the greater-than character: strips every
trailing such character. -/
def trimEndGt (s : String) : String :=
  String.mk ((s.toList.reverse.dropWhile (fun c => c = '>')).reverse)

/-- Model of RawTocItem::get_page_number from src/tree.rs: a numeric
physical_index goes through Number::as_u64 (negative values yield
none); a string either has the page-marker shape, in which case the
pattern is stripped from the front and trailing markers from the back
before parsing, or is parsed directly; anything else yields none. -/
def RawTocItem.get_page_number (item : RawTocItem) : Option Nat :=
  match item.physical_index with
  | some (.num n) => if 0 ≤ n then some n.toNat else none
  | some (.str s) =>
    if listStartsWith ("<physical_index_".toList) s.toList then
      parseUsize (trimEndGt (trimStartMarker s))
    else
      parseUsize s
  | _ => none

/-- First pass of build_tree_from_toc (src/tree.rs): walk the item
list, resolving each start index (default 1), computing each end index
from the next item's page (minus one, clamped at the bottom only
against the value 1; total_pages for the last item or when the next
page is unresolvable), and pairing each node with its parsed structure
indices (a missing structure yields the singleton position + 1, making
the node a root). -/
def processItems (total_pages : Nat) : Nat → List RawTocItem →
    List (List Nat × TreeNode)
  | _, [] => []
  | i, item :: rest =>
    let start_index := (item.get_page_number).getD 1
    let end_index :=
      match rest.head? >>= RawTocItem.get_page_number with
      | some n => if n > 1 then n - 1 else n
      | none => total_pages
    let node : TreeNode :=
      .mk item.title item.struct start_index end_index .nil none none
    let indices : List Nat :=
      match item.struct with
      | some st => (splitOnChar '.' st.toList).filterMap parseUsizeL
      | none => [i + 1]
    (indices, node) :: processItems total_pages (i + 1) rest

/-- Model of add_to_tree from src/tree.rs: with at most one remaining
index the node becomes a child of parent; otherwise recurse into the
last child when there is one, else attach to parent directly. -/
def add_to_tree : TreeNode → List Nat → TreeNode → TreeNode
  | parent, [], node => parent.add_child node
  | parent, [_], node => parent.add_child node
  | parent, _ :: i :: is, node =>
    match parent.nodes with
    | .nil => parent.add_child node
    | _ =>
      match parent with
      | .mk t s a e ns sm id =>
        .mk t s a e (ns.modifyLast (fun c => add_to_tree c (i :: is) node)) sm id

/-- One step of the hierarchy-placement loop of build_tree_from_toc: a
single-element index list makes a new root; otherwise the node is
routed into the current last root (or becomes a root when there is
none). -/
def placeStep (acc : TNList) (p : List Nat × TreeNode) : TNList :=
  if p.1.length = 1 then acc.push p.2
  else
    match acc with
    | .nil => acc.push p.2
    | _ => acc.modifyLast (fun parent => add_to_tree parent (p.1.drop 1) p.2)

/-- Maximum end_index over a node list, starting from 0 (models the
iterator max over children used by fix_end_indices; the unwrap_or
branch of the source is unreachable there because the list is
non-empty). -/
def maxEndIndex : TNList → Nat
  | .nil => 0
  | .cons c tl => Nat.max c.end_index (maxEndIndex tl)

mutual
/-- Model of fix_end_indices from src/tree.rs: fix children first, then
widen this node's end_index to the children's maximum when that is
larger and the node has children. -/
def fix_end_indices : TreeNode → TreeNode
  | .mk t s a e ns sm id =>
    match fixList ns with
    | .nil => .mk t s a e .nil sm id
    | .cons c tl =>
      let maxEnd := maxEndIndex (.cons c tl)
      .mk t s a (if maxEnd > e then maxEnd else e) (.cons c tl) sm id
/-- fix_end_indices mapped over a node list (the loop over children and
the loop over roots in the source). -/
def fixList : TNList → TNList
  | .nil => .nil
  | .cons c tl => .cons (fix_end_indices c) (fixList tl)
end

/-- Model of build_tree_from_toc from src/tree.rs: empty input gives an
empty forest; otherwise process items, place them by structure indices,
and run the end-index fix-up over every root. -/
def build_tree_from_toc (items : List RawTocItem) (total_pages : Nat) : TNList :=
  if items.isEmpty then .nil
  else fixList ((processItems total_pages 0 items).foldl placeStep .nil)

/-- Model of src/error.rs PageIndexError.  Payloads that are paths or
foreign error values are modelled as strings; the constructor identity
is what the error-handling claims are about. -/
inductive PageIndexError : Type where
  | io : String → String → PageIndexError
  | serialization : String → PageIndexError
  | documentNotFound : String → PageIndexError
  | invalidCorpusPath : String → PageIndexError
  | emptyCorpus : String → PageIndexError
  | indexNotFound : String → PageIndexError
  | invalidConfig : String → PageIndexError
  | llmApi : String → PageIndexError
  | llmParse : String → PageIndexError
  | http : String → PageIndexError
  | config : String → PageIndexError
  | treeError : String → PageIndexError
deriving DecidableEq

/-- Count of whitespace-separated words (str::split_whitespace count);
the Bool flag records whether the previous character was inside a
word. -/
def countWordsAux : Bool → List Char → Nat
  | _, [] => 0
  | inWord, c :: cs =>
    if Char.isWhitespace c then countWordsAux false cs
    else (if inWord then 0 else 1) + countWordsAux true cs

/-- Model of estimate_tokens from src/document.rs: word count divided
by 0.75 and truncated.  The float computation of the source equals the
rational value 4w/3 rounded toward zero for every word count a
document can have, so it is modelled as Nat division. -/
def estimate_tokens (text : String) : Nat :=
  countWordsAux false text.toList * 4 / 3

/-- Model of src/document.rs Page. -/
structure Page : Type where
  number : Nat
  content : String
  token_count : Nat

/-- Model of Page::new: token_count is derived from the content. -/
def Page.new (number : Nat) (content : String) : Page :=
  ⟨number, content, estimate_tokens content⟩

/-- Model of Page::with_index_tags: the page content wrapped in
page-boundary marker lines. -/
def Page.with_index_tags (p : Page) : String :=
  "<physical_index_" ++ toString p.number ++ ">\n" ++ p.content ++
    "\n<physical_index_" ++ toString p.number ++ ">\n\n"

/-- Model of src/document.rs Document. -/
structure Document : Type where
  name : String
  path : Option String
  pages : List Page

/-- Model of Document::content_range: concatenated tagged content of
the pages whose number lies in the inclusive range. -/
def Document.content_range (doc : Document) (start fin : Nat) : String :=
  String.join ((doc.pages.filter
    (fun p => decide (start ≤ p.number ∧ p.number ≤ fin))).map Page.with_index_tags)

/-- Invariant of the Document data model (spec section 3): page numbers
are contiguous starting at 1, in sequence order. -/
def pagesSequential (doc : Document) : Prop :=
  doc.pages.map Page.number = List.range' 1 doc.pages.length

/-- Model of src/search.rs Relevance. -/
inductive Relevance : Type where
  | high : Relevance
  | medium : Relevance
  | low : Relevance
deriving DecidableEq

/-- Model of Relevance::from_str: case-insensitive, with every
unrecognized string normalizing to low. -/
def Relevance.from_str (s : String) : Relevance :=
  match rustToLower s with
  | "high" => .high
  | "medium" => .medium
  | _ => .low

/-- Model of Relevance::score. -/
def Relevance.score : Relevance → Nat
  | .high => 3
  | .medium => 2
  | .low => 1

/-- Model of src/search.rs SearchResult. -/
structure SearchResult : Type where
  title : String
  start_index : Nat
  end_index : Nat
  relevance : Relevance
  reason : String
  content : Option String
deriving DecidableEq

/-- Model of src/search.rs SearchOptions. -/
structure SearchOptions : Type where
  top_k : Nat
  min_relevance : Relevance
  include_content : Bool

/-- Model of the Default impl for SearchOptions: top_k 10, minimum
relevance low, no content. -/
def SearchOptions.default : SearchOptions :=
  ⟨10, .low, false⟩

/-- Stable insertion of a result into an already-sorted (descending by
relevance score) list: the inserted element precedes every element of
equal score because it originates earlier in the input. -/
def insertByScoreDesc (r : SearchResult) : List SearchResult → List SearchResult
  | [] => [r]
  | x :: xs =>
    if x.relevance.score ≤ r.relevance.score then r :: x :: xs
    else x :: insertByScoreDesc r xs

/-- Model of Vec::sort_by with the comparator of TreeSearcher::search
(descending by relevance score).  Vec::sort_by is specified to be a
stable sort; any stable sort is extensionally the same function, and
it is modelled here by a stable insertion sort. -/
def sortByScoreDesc : List SearchResult → List SearchResult
  | [] => []
  | x :: xs => insertByScoreDesc x (sortByScoreDesc xs)

/-- Post-processing pipeline of TreeSearcher::search after the
collaborator response is parsed (src/search.rs lines 120-131): retain
results at or above the minimum relevance, stable-sort descending by
relevance, truncate to top_k. -/
def postProcess (opts : SearchOptions) (results : List SearchResult) :
    List SearchResult :=
  ((results.filter
      (fun r => decide (opts.min_relevance.score ≤ r.relevance.score)))
    |> sortByScoreDesc).take opts.top_k

/-- First index at which a pattern occurs in a character list (Rust
str::find with a string pattern, character counted; the data inspected
is ASCII so byte and character indices agree). -/
def findSubIdx (pat : List Char) : List Char → Option Nat
  | [] => if pat.isEmpty then some 0 else none
  | c :: cs =>
    if pat.isPrefixOf (c :: cs) then some 0
    else (findSubIdx pat cs).map (· + 1)

/-- Last index at which a pattern occurs in a character list (Rust
str::rfind with a string pattern). -/
def rfindSubIdx (pat : List Char) : List Char → Option Nat
  | [] => if pat.isEmpty then some 0 else none
  | c :: cs =>
    match rfindSubIdx pat cs with
    | some i => some (i + 1)
    | none => if pat.isPrefixOf (c :: cs) then some 0 else none

/-- First index of a character (Rust str::find with a char pattern). -/
def findCharIdx (ch : Char) (cs : List Char) : Option Nat :=
  findSubIdx [ch] cs

/-- Last index of a character (Rust str::rfind with a char pattern). -/
def rfindCharIdx (ch : Char) (cs : List Char) : Option Nat :=
  rfindSubIdx [ch] cs

/-- Opening brace character (written by code point to keep string
literals free of braces). -/
def lbraceChar : Char := Char.ofNat 123

/-- Closing brace character. -/
def rbraceChar : Char := Char.ofNat 125

/-- Model of TreeSearcher::extract_json (src/search.rs lines 207-237):
trim the response; strip a json code fence, then a bare code fence,
then fall back to the outermost brace span, then to the trimmed
response itself.  Each guard that fails falls through to the next
case, exactly as the early returns of the source do. -/
def extract_json (response : String) : String :=
  let cs := listTrim response.toList
  let fence := "```".toList
  let braceCase : String :=
    match findCharIdx lbraceChar cs, rfindCharIdx rbraceChar cs with
    | some s, some e =>
      if e > s then String.mk ((cs.drop s).take (e + 1 - s)) else String.mk cs
    | _, _ => String.mk cs
  let bareFenceCase : String :=
    if listStartsWith fence cs then
      let start := ((findCharIdx '\n' cs).map (· + 1)).getD 3
      match rfindSubIdx fence cs with
      | some e =>
        if e > start then String.mk (listTrim ((cs.drop start).take (e - start)))
        else braceCase
      | none => braceCase
    else braceCase
  if listStartsWith ("```json".toList) cs then
    match rfindSubIdx fence cs with
    | some e =>
      if e > 7 then String.mk (listTrim ((cs.drop 7).take (e - 7)))
      else bareFenceCase
    | none => bareFenceCase
  else bareFenceCase

/-- Model of the anonymous RawSearchResult struct deserialized inside
TreeSearcher::parse_search_response: the relevance field is a plain
string at this stage. -/
structure RawSearchResult : Type where
  title : String
  start_index : Nat
  end_index : Nat
  relevance : String
  reason : String

/-- Model of the anonymous SearchResponse struct inside
parse_search_response: an optional thinking field (serde default) and
a required list of raw results. -/
structure SearchResponse : Type where
  thinking : Option String
  relevant_sections : List RawSearchResult

/-- Decode a required string field, per the serde derive semantics. -/
def requireStr : Option Json → Except String String
  | some (.str s) => .ok s
  | _ => .error "expected string"

/-- Decode a required u64 field, per the serde derive semantics: only
a non-negative number is accepted. -/
def requireNat : Option Json → Except String Nat
  | some (.num n) => if 0 ≤ n then .ok n.toNat else .error "expected u64"
  | _ => .error "expected u64"

/-- Decode an optional string field: missing or null is none, a string
is some, any other shape is a type error (serde Option semantics). -/
def optStr : Option Json → Except String (Option String)
  | none => .ok none
  | some .null => .ok none
  | some (.str s) => .ok (some s)
  | some _ => .error "expected string or null"

/-- Decode one raw search result object, per the serde derive for the
RawSearchResult shape (all five fields required; the relevance field
is any string; unknown fields are ignored). -/
def decodeRawSearchResult (j : Json) : Except String RawSearchResult :=
  match j with
  | .obj fs => do
    let title ← requireStr (fs.find "title")
    let s ← requireNat (fs.find "start_index")
    let e ← requireNat (fs.find "end_index")
    let rel ← requireStr (fs.find "relevance")
    let reason ← requireStr (fs.find "reason")
    .ok ⟨title, s, e, rel, reason⟩
  | _ => .error "expected object"

/-- Decode a JSON array of raw search results. -/
def decodeRawList : JsonList → Except String (List RawSearchResult)
  | .nil => .ok []
  | .cons j tl => do
    let r ← decodeRawSearchResult j
    let rs ← decodeRawList tl
    .ok (r :: rs)

/-- Decode the SearchResponse shape from a JSON value, per the serde
derive: thinking is optional (serde default), relevant_sections is a
required array. -/
def decodeSearchResponse (j : Json) : Except String SearchResponse :=
  match j with
  | .obj fs => do
    let th ← optStr (fs.find "thinking")
    let secs ←
      match fs.find "relevant_sections" with
      | some (.arr l) => decodeRawList l
      | _ => .error "expected relevant_sections array"
    .ok ⟨th, secs⟩
  | _ => .error "expected object"

/-- External-library boundary: the text-level JSON parser of
serde_json (a third-party crate, not part of this repository).  The
repository consumes it as a black box, so it enters the model as a
parameter: any function from strings to a parsed JSON value or a parse
error.  The shape checking that the repository's derive attributes
determine is the concrete decodeSearchResponse above. -/
abbrev JsonTextParse : Type := String → Except String Json

/-- The error message built by parse_search_response on a parse
failure: the serde error text followed by an excerpt of the raw
response truncated to 200 characters (the source truncates to 200
bytes; the inputs differ only on non-ASCII data). -/
def llmParseMsg (err response : String) : String :=
  "Failed to parse search response: " ++ err ++ ". Response: " ++
    String.mk (response.toList.take 200)

/-- Model of TreeSearcher::parse_search_response (src/search.rs lines
162-204): extract the JSON payload, parse and shape-check it; on any
failure return the distinct LlmParse error carrying the bounded
excerpt; on success convert every raw entry, normalizing its relevance
string through Relevance::from_str. -/
def parse_search_response (jparse : JsonTextParse) (response : String) :
    Except PageIndexError (List SearchResult) :=
  match (jparse (extract_json response)).bind decodeSearchResponse with
  | .error e => .error (.llmParse (llmParseMsg e response))
  | .ok parsed =>
    .ok (parsed.relevant_sections.map (fun r =>
      ⟨r.title, r.start_index, r.end_index, Relevance.from_str r.relevance,
        r.reason, none⟩))

/-- Model of TreeSearcher::search from the point where the
collaborator response is in hand (the network call itself is a
suspension point outside the model): parse, then run the
filter/sort/truncate pipeline.  A parse error fails the whole call. -/
def searchPipeline (jparse : JsonTextParse) (opts : SearchOptions)
    (response : String) : Except PageIndexError (List SearchResult) :=
  (parse_search_response jparse response).map (postProcess opts)

/-- The content-cleaning step of TreeSearcher::search_with_content:
drop every line that starts with a page-boundary marker, rejoin with
newlines, trim. -/
def cleanIndexTags (content : String) : String :=
  rustTrim (String.intercalate "\n"
    ((rustLines content).filter
      (fun l => !listStartsWith ("<physical_index_".toList) l.toList)))

/-- Attachment of content to a single result in
TreeSearcher::search_with_content: the cleaned text of the document
pages in the result's inclusive range. -/
def attachOne (doc : Document) (r : SearchResult) : SearchResult :=
  { r with
    content := some (cleanIndexTags (doc.content_range r.start_index r.end_index)) }

/-- The content-attachment loop of search_with_content over every
surviving result.  The loop is total: no range can fail it. -/
def attach_content (doc : Document) (results : List SearchResult) :
    List SearchResult :=
  results.map (attachOne doc)

/-- Model of TreeSearcher::search_with_content: run the search
pipeline, then attach content to each result. -/
def searchWithContentPipeline (jparse : JsonTextParse)
    (opts : SearchOptions) (doc : Document) (response : String) :
    Except PageIndexError (List SearchResult) :=
  (searchPipeline jparse opts response).map (attach_content doc)

/-- Model of src/tree.rs DocumentTree: name, root nodes, total page
count, optional description, in source field order. -/
structure DocumentTree : Type where
  name : String
  nodes : TNList
  total_pages : Nat
  description : Option String

/-- Optional string field emitted only when present, modelling the
skip_serializing_if attribute on the Option fields of TreeNode and
DocumentTree. -/
def optField (k : String) (v : Option String) (rest : JsonFields) : JsonFields :=
  match v with
  | none => rest
  | some s => .cons k (.str s) rest

mutual
/-- Serde serialization of a TreeNode to JSON, per the derive on
src/tree.rs: fields in declaration order, Option fields skipped when
none, the nodes field skipped when empty. -/
def nodeToJson : TreeNode → Json
  | .mk t s a e ns sm id =>
    .obj (.cons "title" (.str t)
      (optField "structure" s
        (.cons "start_index" (.num a)
          (.cons "end_index" (.num e)
            (match ns with
             | .nil => optField "summary" sm (optField "node_id" id .nil)
             | .cons c tl =>
               .cons "nodes" (.arr (nodesToJsonList (.cons c tl)))
                 (optField "summary" sm (optField "node_id" id .nil)))))))
/-- Serde serialization of a children list to a JSON array. -/
def nodesToJsonList : TNList → JsonList
  | .nil => .nil
  | .cons c tl => .cons (nodeToJson c) (nodesToJsonList tl)
end

/-- Serde serialization of a DocumentTree to JSON: name, nodes (always
present), total_pages, optional description. -/
def treeToJson (dt : DocumentTree) : Json :=
  .obj (.cons "name" (.str dt.name)
    (.cons "nodes" (.arr (nodesToJsonList dt.nodes))
      (.cons "total_pages" (.num dt.total_pages)
        (optField "description" dt.description .nil))))

/-- Fuel-bounded serde deserialization of the elements of a JSON
array of tree nodes (the fuel bounds the nesting depth; the element
decoder for the given fuel is passed in, as in decodeListB below). -/
def jsonListToNodesF (decN : Json → Except String TreeNode) :
    JsonList → Except String TNList
  | .nil => .ok .nil
  | .cons j tl => do
    let n ← decN j
    let ns ← jsonListToNodesF decN tl
    .ok (.cons n ns)

/-- Serde deserialization of a TreeNode from JSON, per the derive on
src/tree.rs: title, start_index and end_index are required; structure,
summary and node_id are optional; nodes has the serde default
attribute, so a missing nodes field yields the empty children list;
unknown fields are ignored.  The first argument is recursion fuel
bounding the nesting depth (the children array is reached through a
field lookup, so the recursion is not structural); the callers below
instantiate it with a size bound proven sufficient. -/
def jsonToNodeF : Nat → Json → Except String TreeNode
  | 0, _ => .error "out of fuel"
  | fuel + 1, .obj fs => do
    let title ← requireStr (fs.find "title")
    let s ← optStr (fs.find "structure")
    let a ← requireNat (fs.find "start_index")
    let e ← requireNat (fs.find "end_index")
    let ns ←
      match fs.find "nodes" with
      | none => Except.ok TNList.nil
      | some (.arr l) => jsonListToNodesF (jsonToNodeF fuel) l
      | some _ => Except.error "expected nodes array"
    let sm ← optStr (fs.find "summary")
    let nid ← optStr (fs.find "node_id")
    .ok (.mk title s a e ns sm nid)
  | _ + 1, _ => .error "expected object"

mutual
/-- Size of a JSON value, used to bound decoder fuel. -/
def jsonSize : Json → Nat
  | .null => 1
  | .bool _ => 1
  | .num _ => 1
  | .str _ => 1
  | .arr l => jsonListSize l + 1
  | .obj fs => jsonFieldsSize fs + 1
/-- Size of a JSON array body. -/
def jsonListSize : JsonList → Nat
  | .nil => 0
  | .cons j tl => jsonSize j + jsonListSize tl
/-- Size of a JSON object body. -/
def jsonFieldsSize : JsonFields → Nat
  | .nil => 0
  | .cons _ v tl => jsonSize v + jsonFieldsSize tl
end

/-- Serde deserialization of a DocumentTree from JSON: name, nodes and
total_pages required, description optional. -/
def jsonToTree (j : Json) : Except String DocumentTree :=
  match j with
  | .obj fs => do
    let name ← requireStr (fs.find "name")
    let ns ←
      match fs.find "nodes" with
      | some (.arr l) => jsonListToNodesF (jsonToNodeF (jsonListSize l)) l
      | _ => Except.error "expected nodes array"
    let tp ← requireNat (fs.find "total_pages")
    let desc ← optStr (fs.find "description")
    .ok ⟨name, ns, tp, desc⟩
  | _ => .error "expected object"

/-- One token of the bincode stream.  The bincode standard
configuration writes self-delimiting varint integers and
length-delimited UTF-8 strings; the byte-level representation is the
external library's concern and is abstracted into one token per
encoded primitive. -/
inductive BVal : Type where
  | nat : Nat → BVal
  | str : String → BVal
deriving DecidableEq

/-- Bincode encoding of an Option of String: variant index 0 for none,
1 followed by the payload for some. -/
def optB : Option String → List BVal
  | none => [.nat 0]
  | some s => [.nat 1, .str s]

mutual
/-- Bincode encoding of a TreeNode, per the Encode derive on
src/tree.rs: fields in declaration order; a Vec is its length followed
by its elements. -/
def nodeToB : TreeNode → List BVal
  | .mk t s a e ns sm id =>
    .str t :: optB s ++ .nat a :: .nat e :: .nat ns.length ::
      (listToB ns ++ optB sm ++ optB id)
/-- Bincode encoding of the elements of a node list. -/
def listToB : TNList → List BVal
  | .nil => []
  | .cons c tl => nodeToB c ++ listToB tl
end

/-- Bincode encoding of a DocumentTree, per the Encode derive. -/
def treeToB (dt : DocumentTree) : List BVal :=
  .str dt.name :: .nat dt.nodes.length ::
    (listToB dt.nodes ++ .nat dt.total_pages :: optB dt.description)

/-- Bincode decoding of an Option of String. -/
def decodeOptB : List BVal → Option (Option String × List BVal)
  | .nat 0 :: rest => some (none, rest)
  | .nat 1 :: .str s :: rest => some (some s, rest)
  | _ => none

/-- Bincode decoding of a counted sequence of nodes, given a decoder
for one node. -/
def decodeListB (decN : List BVal → Option (TreeNode × List BVal)) :
    Nat → List BVal → Option (TNList × List BVal)
  | 0, input => some (.nil, input)
  | c + 1, input =>
    (decN input).bind fun (t, rest) =>
      (decodeListB decN c rest).map fun (l, r2) => (.cons t l, r2)

/-- Bincode decoding of a TreeNode.  The first argument is recursion
fuel bounding the nesting depth; the callers below instantiate it with
the stream length, which the height lemmas prove sufficient. -/
def decodeNodeB : Nat → List BVal → Option (TreeNode × List BVal)
  | 0, _ => none
  | fuel + 1, input =>
    match input with
    | .str t :: r1 =>
      (decodeOptB r1).bind fun (s, r2) =>
        match r2 with
        | .nat a :: .nat e :: .nat len :: r3 =>
          (decodeListB (decodeNodeB fuel) len r3).bind fun (ns, r4) =>
            (decodeOptB r4).bind fun (sm, r5) =>
              (decodeOptB r5).map fun (nid, r6) => (.mk t s a e ns sm nid, r6)
        | _ => none
    | _ => none

/-- Bincode decoding of a DocumentTree (bincode::decode_from_slice
ignores trailing input, returning the bytes consumed). -/
def decodeTreeB (input : List BVal) : Option DocumentTree :=
  match input with
  | .str name :: .nat len :: rest =>
    (decodeListB (decodeNodeB rest.length) len rest).bind fun (ns, r2) =>
      match r2 with
      | .nat tp :: r3 =>
        (decodeOptB r3).map fun (desc, _) =>
          ({ name := name, nodes := ns, total_pages := tp,
             description := desc } : DocumentTree)
      | _ => none
  | _ => none

/-- Model of src/persistence.rs SaveFormat. -/
inductive SaveFormat : Type where
  | json : SaveFormat
  | bincode : SaveFormat
deriving DecidableEq

/-- Model of Rust Path::extension on a path string: the portion of the
final path component after its last dot, unless the only dot is the
leading character of the component.  Trailing separators are ignored,
as Rust does. -/
def pathExtensionOf (p : String) : Option String :=
  let name := (((splitOnChar '/' p.toList).filter (fun seg => !seg.isEmpty)).getLastD [])
  match name with
  | [] => none
  | _ :: rest =>
    match rfindCharIdx '.' rest with
    | none => none
    | some i => some (String.mk (rest.drop (i + 1)))

/-- Model of SaveFormat::from_path (src/persistence.rs): json for the
json suffix, bincode for bin or bincode, json for everything else. -/
def SaveFormat.from_path (p : String) : SaveFormat :=
  match pathExtensionOf p with
  | some e =>
    if e = "json" then .json
    else if e = "bin" ∨ e = "bincode" then .bincode
    else .json
  | none => .json

/-- Content of a persisted index file.  The on-disk bytes are
abstracted structurally: the JSON text printer/parser pair of
serde_json and the varint byte writer/reader of bincode are external
library layers; the repository's own serialization semantics (field
names, ordering, optionality, format choice) live in the codecs
above.  A format mismatch when loading surfaces as a serialization
error, as any byte-level parse failure does in the source. -/
inductive FileData : Type where
  | jsonData : Json → FileData
  | binData : List BVal → FileData

/-- The filesystem, modelled as a map from paths to file contents. -/
def FileSystem : Type := String → Option FileData

/-- Serialization step of save_tree_with_format for a given format. -/
def saveData (fmt : SaveFormat) (t : DocumentTree) : FileData :=
  match fmt with
  | .json => .jsonData (treeToJson t)
  | .bincode => .binData (treeToB t)

/-- Parsing step of load_tree_with_format for a given format. -/
def loadData (fmt : SaveFormat) (d : FileData) : Except String DocumentTree :=
  match fmt, d with
  | .json, .jsonData j => jsonToTree j
  | .bincode, .binData bv =>
    match decodeTreeB bv with
    | some t => .ok t
    | none => .error "bincode decode failed"
  | _, _ => .error "format mismatch"

/-- Model of save_tree (src/persistence.rs): choose the format from
the path suffix and write the serialized tree at the path.  Directory
creation and write failures are I/O effects outside the model. -/
def save_tree (fs : FileSystem) (t : DocumentTree) (path : String) : FileSystem :=
  fun p => if p = path then some (saveData (SaveFormat.from_path path) t) else fs p

/-- Model of load_tree (src/persistence.rs): a missing path returns
the distinct IndexNotFound error carrying the path, before any read is
attempted; otherwise the file is read and parsed per the suffix-chosen
format, and parse failures surface as Serialization errors. -/
def load_tree (fs : FileSystem) (path : String) :
    Except PageIndexError DocumentTree :=
  match fs path with
  | none => .error (.indexNotFound path)
  | some d =>
    match loadData (SaveFormat.from_path path) d with
    | .ok t => .ok t
    | .error e => .error (.serialization e)

mutual
/-- Check a Boolean property on a node and every node below it. -/
def allNodesB (p : TreeNode → Bool) : TreeNode → Bool
  | .mk t s a e ns sm id => p (.mk t s a e ns sm id) && allListB p ns
/-- Check a Boolean property on every node of a forest. -/
def allListB (p : TreeNode → Bool) : TNList → Bool
  | .nil => true
  | .cons c tl => allNodesB p c && allListB p tl
end

mutual
/-- The C2 invariant at one node and below: the node's end_index is at
least the maximum end_index of its children, recursively. -/
def fixedB : TreeNode → Bool
  | .mk _ _ _ e ns _ _ => decide (maxEndIndex ns ≤ e) && fixedListB ns
/-- The C2 invariant on every node of a forest. -/
def fixedListB : TNList → Bool
  | .nil => true
  | .cons c tl => fixedB c && fixedListB tl
end

mutual
/-- Maximum end_index over the strict descendants of a node (0 when
there are none). -/
def descMaxEnd : TreeNode → Nat
  | .mk _ _ _ _ ns _ _ => descMaxEndL ns
/-- Maximum end_index over all nodes of a forest and their
descendants. -/
def descMaxEndL : TNList → Nat
  | .nil => 0
  | .cons c tl => Nat.max (Nat.max c.end_index (descMaxEnd c)) (descMaxEndL tl)
end

mutual
/-- Height of a tree node (leaves have height 1); bounds decoder
fuel. -/
def heightN : TreeNode → Nat
  | .mk _ _ _ _ ns _ _ => heightL ns + 1
/-- Height of a forest (0 when empty). -/
def heightL : TNList → Nat
  | .nil => 0
  | .cons c tl => Nat.max (heightN c) (heightL tl)
end

/-- The property claimed by C1 for a single node: start_index at most
end_index. -/
def startLEb (n : TreeNode) : Bool :=
  decide (n.start_index ≤ n.end_index)

/-- The page numbers the builder resolves for a descriptor list, with
the default of 1 for an unresolvable page reference (the start_index
expression of src/tree.rs line 267, mapped over the list). -/
def resolvedPages (items : List RawTocItem) : List Nat :=
  items.map (fun it => (it.get_page_number).getD 1)

/-- The retain predicate of TreeSearcher::search: relevance score at
or above the configured minimum. -/
def keepB (opts : SearchOptions) (r : SearchResult) : Bool :=
  decide (opts.min_relevance.score ≤ r.relevance.score)

/-- Result has the given relevance (used to state sort stability). -/
def relEqB (rel : Relevance) (r : SearchResult) : Bool :=
  decide (r.relevance = rel)

/-- Concrete descriptor list refuting C1 as stated: two roots whose
resolved pages are both 5. -/
def c1CounterItems : List RawTocItem :=
  [⟨some "1", "A", some (.num 5)⟩, ⟨some "2", "B", some (.num 5)⟩]

/-- Concrete descriptor list with strictly increasing resolved pages,
used to witness the amended C1. -/
def c1WitnessItems : List RawTocItem :=
  [⟨some "1", "a", some (.num 2)⟩, ⟨some "1.1", "b", some (.num 5)⟩]

/-- The descriptor list of the C5 scenario from the spec. -/
def c5Items : List RawTocItem :=
  [⟨some "1", "Intro", some (.num 1)⟩,
   ⟨some "1.1", "Background", some (.num 1)⟩,
   ⟨some "2", "Methods", some (.num 5)⟩]

/-- A five-page document with one line of text per page, used by the
C7 content-slicing scenario. -/
def fivePageDoc : Document :=
  ⟨"d", none,
   [Page.new 1 "A1", Page.new 2 "A2", Page.new 3 "A3",
    Page.new 4 "A4", Page.new 5 "A5"]⟩

/-- A search result fixture with the given title and relevance. -/
def sr (t : String) (rel : Relevance) : SearchResult :=
  ⟨t, 1, 2, rel, "r", none⟩

/-- A parsed collaborator response whose single entry carries an
unrecognized relevance string. -/
def bananaJson : Json :=
  .obj (.cons "relevant_sections"
    (.arr (.cons
      (.obj (.cons "title" (.str "t")
        (.cons "start_index" (.num 1)
          (.cons "end_index" (.num 2)
            (.cons "relevance" (.str "banana")
              (.cons "reason" (.str "because") .nil)))))) .nil)) .nil)

/-- A text-level JSON parser stub that always succeeds with the
banana-relevance response. -/
def okJsonParse : JsonTextParse := fun _ => .ok bananaJson

/-- A text-level JSON parser stub that always fails, standing for an
unparsable collaborator response. -/
def failJsonParse : JsonTextParse := fun _ => .error "boom"

theorem resolvedPages_cons (it : RawTocItem) (rest : List RawTocItem) :
    resolvedPages (it :: rest) =
      ((it.get_page_number).getD 1) :: resolvedPages rest := rfl

theorem allListB_push (p : TreeNode → Bool) :
    ∀ (l : TNList) (n : TreeNode),
      allListB p (l.push n) = (allListB p l && allNodesB p n)
  | .nil, n => by simp [TNList.push, allListB]
  | .cons c tl, n => by
    simp [TNList.push, allListB, allListB_push p tl n, Bool.and_assoc]

theorem allListB_modifyLast (p : TreeNode → Bool) (f : TreeNode → TreeNode)
    (hf : ∀ x, allNodesB p x = true → allNodesB p (f x) = true) :
    ∀ (l : TNList), allListB p l = true →
      allListB p (TNList.modifyLast f l) = true
  | .nil, _ => by simp [TNList.modifyLast, allListB]
  | .cons x .nil, h => by
    simp [allListB] at h
    simpa [TNList.modifyLast, allListB] using hf x h
  | .cons x (.cons y tl), h => by
    simp [allListB] at h
    have := allListB_modifyLast p f hf (.cons y tl) (by simp [allListB]; exact h.2)
    simpa [TNList.modifyLast, allListB] using ⟨h.1, this⟩

theorem allNodesB_add_child (p : TreeNode → Bool)
    (hcs : ∀ t s a e ns ns2 sm id,
      p (.mk t s a e ns sm id) = p (.mk t s a e ns2 sm id)) :
    ∀ (parent node : TreeNode),
      allNodesB p parent = true → allNodesB p node = true →
      allNodesB p (parent.add_child node) = true
  | .mk t s a e ns sm id, node, hp, hn => by
    simp only [allNodesB, Bool.and_eq_true] at hp
    simp only [TreeNode.add_child, allNodesB, allListB_push, Bool.and_eq_true]
    refine ⟨?_, hp.2, hn⟩
    rw [hcs t s a e (ns.push node) ns sm id]
    exact hp.1

theorem allNodesB_add_to_tree (p : TreeNode → Bool)
    (hcs : ∀ t s a e ns ns2 sm id,
      p (.mk t s a e ns sm id) = p (.mk t s a e ns2 sm id)) :
    ∀ (is : List Nat) (parent node : TreeNode),
      allNodesB p parent = true → allNodesB p node = true →
      allNodesB p (add_to_tree parent is node) = true
  | [], parent, node, hp, hn => by
    simpa [add_to_tree] using allNodesB_add_child p hcs parent node hp hn
  | [_], parent, node, hp, hn => by
    simpa [add_to_tree] using allNodesB_add_child p hcs parent node hp hn
  | _ :: j :: js, parent, node, hp, hn => by
    cases parent with
    | mk t s a e ns sm id =>
      cases ns with
      | nil =>
        simpa [add_to_tree] using
          allNodesB_add_child p hcs (.mk t s a e .nil sm id) node hp hn
      | cons c tl =>
        simp only [allNodesB, Bool.and_eq_true] at hp
        have h2 := allListB_modifyLast p _
          (fun x hx => allNodesB_add_to_tree p hcs (j :: js) x node hx hn)
          (.cons c tl) hp.2
        have h1 : p (.mk t s a e (TNList.modifyLast
            (fun x => add_to_tree x (j :: js) node) (.cons c tl)) sm id) = true := by
          rw [hcs t s a e _ (.cons c tl) sm id]
          exact hp.1
        simp [add_to_tree, allNodesB, TreeNode.nodes, h1, h2]

theorem allListB_placeStep (p : TreeNode → Bool)
    (hcs : ∀ t s a e ns ns2 sm id,
      p (.mk t s a e ns sm id) = p (.mk t s a e ns2 sm id))
    (acc : TNList) (pr : List Nat × TreeNode)
    (hacc : allListB p acc = true) (hn : allNodesB p pr.2 = true) :
    allListB p (placeStep acc pr) = true := by
  unfold placeStep
  split
  · simp [allListB_push, hacc, hn]
  · cases acc with
    | nil => simp [TNList.push, allListB, hn]
    | cons c tl =>
      exact allListB_modifyLast p _
        (fun x hx => allNodesB_add_to_tree p hcs _ x pr.2 hx hn) _ hacc

theorem allListB_foldl_placeStep (p : TreeNode → Bool)
    (hcs : ∀ t s a e ns ns2 sm id,
      p (.mk t s a e ns sm id) = p (.mk t s a e ns2 sm id)) :
    ∀ (prs : List (List Nat × TreeNode)) (acc : TNList),
      allListB p acc = true →
      (∀ pr ∈ prs, allNodesB p pr.2 = true) →
      allListB p (prs.foldl placeStep acc) = true
  | [], acc, hacc, _ => hacc
  | pr :: prs, acc, hacc, hall => by
    simp only [List.foldl_cons]
    exact allListB_foldl_placeStep p hcs prs _
      (allListB_placeStep p hcs acc pr hacc (hall pr (by simp)))
      (fun q hq => hall q (by simp [hq]))

theorem processItems_startLE (total : Nat) :
    ∀ (i : Nat) (items : List RawTocItem),
      List.Chain' (· < ·) (resolvedPages items) →
      (∀ q ∈ resolvedPages items, q ≤ total) →
      ∀ pr ∈ processItems total i items, allNodesB startLEb pr.2 = true
  | _, [], _, _ => by simp [processItems]
  | i, item :: rest, hchain, hbound => by
    have hb0 : (item.get_page_number).getD 1 ≤ total := by
      apply hbound
      rw [resolvedPages_cons]
      exact List.mem_cons_self _ _
    have htailb : ∀ q ∈ resolvedPages rest, q ≤ total := by
      intro q hq
      apply hbound
      rw [resolvedPages_cons]
      exact List.mem_cons_of_mem _ hq
    rw [resolvedPages_cons] at hchain
    obtain ⟨hhead, htailc⟩ := List.chain'_cons'.mp hchain
    intro pr hpr
    rw [processItems] at hpr
    rcases List.mem_cons.mp hpr with rfl | hmem
    · simp only [allNodesB, allListB, Bool.and_true, startLEb, TreeNode.start_index,
        TreeNode.end_index, decide_eq_true_iff]
      cases rest with
      | nil => simpa using hb0
      | cons nx rest2 =>
        have hlt : (item.get_page_number).getD 1 < (nx.get_page_number).getD 1 := by
          apply hhead
          rw [resolvedPages_cons]
          simp
        have hsc : (nx :: rest2).head? >>= RawTocItem.get_page_number =
            nx.get_page_number := by simp
        rw [hsc]
        cases hg : nx.get_page_number with
        | none =>
          show (item.get_page_number).getD 1 ≤ total
          exact hb0
        | some n =>
          rw [hg] at hlt
          simp only [Option.getD_some] at hlt
          show (item.get_page_number).getD 1 ≤ if n > 1 then n - 1 else n
          split <;> omega
    · exact processItems_startLE total (i + 1) rest htailc htailb pr hmem

mutual
theorem fix_pres_startLE : ∀ (t : TreeNode),
    allNodesB startLEb t = true → allNodesB startLEb (fix_end_indices t) = true
  | .mk ti s a e ns sm id, h => by
    simp only [allNodesB, Bool.and_eq_true] at h
    have h3 := fixList_pres_startLE ns h.2
    cases hfl : fixList ns with
    | nil =>
      simpa [fix_end_indices, hfl, allNodesB, allListB] using h.1
    | cons c tl =>
      rw [hfl] at h3
      have h1 : a ≤ e := by
        simpa [startLEb, TreeNode.start_index, TreeNode.end_index] using h.1
      simp only [fix_end_indices, hfl, allNodesB, Bool.and_eq_true]
      refine ⟨?_, h3⟩
      simp only [startLEb, TreeNode.start_index, TreeNode.end_index,
        decide_eq_true_iff]
      split <;> omega
theorem fixList_pres_startLE : ∀ (l : TNList),
    allListB startLEb l = true → allListB startLEb (fixList l) = true
  | .nil, _ => by simp [fixList, allListB]
  | .cons c tl, h => by
    simp only [allListB, Bool.and_eq_true] at h
    simp [fixList, allListB, fix_pres_startLE c h.1, fixList_pres_startLE tl h.2]
end

mutual
theorem fixedB_fixEnd : ∀ (t : TreeNode), fixedB (fix_end_indices t) = true
  | .mk ti s a e ns sm id => by
    have hl := fixedListB_fixList ns
    cases hfl : fixList ns with
    | nil => simp [fix_end_indices, hfl, fixedB, maxEndIndex, fixedListB]
    | cons c tl =>
      rw [hfl] at hl
      simp only [fix_end_indices, hfl, fixedB, Bool.and_eq_true]
      refine ⟨?_, hl⟩
      simp only [decide_eq_true_iff]
      split <;> omega
theorem fixedListB_fixList : ∀ (l : TNList), fixedListB (fixList l) = true
  | .nil => by simp [fixList, fixedListB]
  | .cons c tl => by
    simp [fixList, fixedListB, fixedB_fixEnd c, fixedListB_fixList tl]
end

mutual
theorem descMax_le_of_fixed : ∀ (t : TreeNode),
    fixedB t = true → descMaxEnd t ≤ t.end_index
  | .mk ti s a e ns sm id, h => by
    simp only [fixedB, Bool.and_eq_true, decide_eq_true_iff] at h
    have h2 := descMaxL_le_of_fixed ns h.2
    simp only [descMaxEnd, TreeNode.end_index]
    omega
theorem descMaxL_le_of_fixed : ∀ (l : TNList),
    fixedListB l = true → descMaxEndL l ≤ maxEndIndex l
  | .nil, _ => by simp [descMaxEndL, maxEndIndex]
  | .cons c tl, h => by
    simp only [fixedListB, Bool.and_eq_true] at h
    have h1 := descMax_le_of_fixed c h.1
    have h2 := descMaxL_le_of_fixed tl h.2
    simp only [descMaxEndL, maxEndIndex]
    refine Nat.max_le.mpr ⟨Nat.max_le.mpr
      ⟨Nat.le_max_left _ _, le_trans h1 (Nat.le_max_left _ _)⟩,
      le_trans h2 (Nat.le_max_right _ _)⟩
end

mutual
theorem allNodes_desc_of_fixed : ∀ (t : TreeNode), fixedB t = true →
    allNodesB (fun n => decide (descMaxEnd n ≤ n.end_index)) t = true
  | .mk ti s a e ns sm id, h => by
    have hd := descMax_le_of_fixed _ h
    simp only [fixedB, Bool.and_eq_true] at h
    simp only [allNodesB, Bool.and_eq_true, decide_eq_true_iff]
    exact ⟨hd, allList_desc_of_fixed ns h.2⟩
theorem allList_desc_of_fixed : ∀ (l : TNList), fixedListB l = true →
    allListB (fun n => decide (descMaxEnd n ≤ n.end_index)) l = true
  | .nil, _ => by simp [allListB]
  | .cons c tl, h => by
    simp only [fixedListB, Bool.and_eq_true] at h
    simp only [allListB, Bool.and_eq_true]
    exact ⟨allNodes_desc_of_fixed c h.1, allList_desc_of_fixed tl h.2⟩
end

/-- C1 counterexample: the claim that every TreeNode produced by
build_tree_from_toc satisfies start_index at most end_index is false:
for two root descriptors both resolving to page 5 over 10 total pages,
the first produced root has start_index 5 and end_index 4, because the
source clamps the end only against the value 1 (next page minus one,
kept at the next page only when that page is at most 1), never against
the node's own start page. -/
theorem c1_start_le_end_counterexample :
    build_tree_from_toc c1CounterItems 10 =
      .cons (.mk "A" (some "1") 5 4 .nil none none)
        (.cons (.mk "B" (some "2") 5 10 .nil none none) .nil) ∧
    allListB startLEb (build_tree_from_toc c1CounterItems 10) = false := by
  exact ⟨rfl, rfl⟩

/-- C1 (amended): node i's end index is next resolved page minus one,
clamped only against the value 1 (not against the node's own start),
and the last descriptor's range extends to total_pages; consequently
start_index at most end_index holds for every produced TreeNode
whenever the resolved page sequence is strictly increasing and every
resolved page is at most total_pages. -/
theorem c1_start_le_end_amended (items : List RawTocItem) (total_pages : Nat)
    (hchain : List.Chain' (· < ·) (resolvedPages items))
    (hbound : ∀ q ∈ resolvedPages items, q ≤ total_pages) :
    allListB startLEb (build_tree_from_toc items total_pages) = true := by
  unfold build_tree_from_toc
  split
  · rfl
  · apply fixList_pres_startLE
    apply allListB_foldl_placeStep startLEb
      (fun _ _ _ _ _ _ _ _ => rfl)
    · rfl
    · intro pr hpr
      exact processItems_startLE total_pages 0 items hchain hbound pr hpr

/-- Witness for the amended C1 on a concrete strictly increasing
descriptor list. -/
theorem c1_start_le_end_amended_witness :
    List.Chain' (· < ·) (resolvedPages c1WitnessItems) ∧
    (∀ q ∈ resolvedPages c1WitnessItems, q ≤ 10) ∧
    allListB startLEb (build_tree_from_toc c1WitnessItems 10) = true :=
  ⟨by show List.Chain' (· < ·) ([2, 5] : List Nat); simp,
   by decide,
   c1_start_le_end_amended c1WitnessItems 10
     (by show List.Chain' (· < ·) ([2, 5] : List Nat); simp)
     (by decide)⟩

/-- C2: after build_tree_from_toc returns, every node's end_index is
at least the maximum end_index among its children, and hence at least
the end_index of every descendant, for every input descriptor list and
total page count; the bottom-up fix-up pass establishes it. -/
theorem c2_parent_spans_children (items : List RawTocItem) (total_pages : Nat) :
    fixedListB (build_tree_from_toc items total_pages) = true ∧
    allListB (fun n => decide (descMaxEnd n ≤ n.end_index))
      (build_tree_from_toc items total_pages) = true := by
  constructor
  · unfold build_tree_from_toc
    split
    · rfl
    · exact fixedListB_fixList _
  · unfold build_tree_from_toc
    split
    · rfl
    · exact allList_desc_of_fixed _ (fixedListB_fixList _)

/-- C5: on the spec's scenario descriptors over 10 pages the builder
returns exactly two roots: Intro spanning pages 1 to 4 (widened by its
child) with the single child Background spanning 1 to 4, and Methods
spanning 5 to 10. -/
theorem c5_scenario_two_roots :
    build_tree_from_toc c5Items 10 =
      .cons (.mk "Intro" (some "1") 1 4
          (.cons (.mk "Background" (some "1.1") 1 4 .nil none none) .nil)
          none none)
        (.cons (.mk "Methods" (some "2") 5 10 .nil none none) .nil) := rfl

/-- C6: page-reference resolution normalizes both representations: an
integer 7 and the marker string both resolve to page 7; an absent
physical_index resolves to none, an unparsable string resolves to
none, and the builder turns any unresolved reference into page 1
rather than failing (the builder itself is a total function). -/
theorem c6_page_ref_normalization (st : Option String) (ti : String) :
    RawTocItem.get_page_number ⟨st, ti, some (.num 7)⟩ = some 7 ∧
    RawTocItem.get_page_number ⟨st, ti, some (.str "<physical_index_7>")⟩ =
      some 7 ∧
    RawTocItem.get_page_number ⟨st, ti, none⟩ = none ∧
    RawTocItem.get_page_number ⟨st, ti, some (.str "garbage")⟩ = none ∧
    (∀ (item : RawTocItem) (total i : Nat) (rest : List RawTocItem),
      item.get_page_number = none →
      (processItems total i (item :: rest)).head?.map
        (fun pr => pr.2.start_index) = some 1) := by
  refine ⟨rfl, rfl, rfl, rfl, ?_⟩
  intro item total i rest h
  simp [processItems, h, TreeNode.start_index]

/-- Witness for C6 on a concrete descriptor with an absent page
reference. -/
theorem c6_page_ref_normalization_witness :
    (processItems 10 0 ([⟨some "1", "t", (none : Option Json)⟩] :
        List RawTocItem)).head?.map (fun pr => pr.2.start_index) = some 1 :=
  (c6_page_ref_normalization (some "1") "t").2.2.2.2 _ 10 0 [] rfl

/-- C9: loading a path that holds no file returns the distinct
IndexNotFound error carrying the path, for every filesystem and path;
the existence check precedes any read of file content. -/
theorem c9_missing_index_distinct_error (fs : FileSystem) (path : String)
    (h : fs path = none) :
    load_tree fs path = .error (.indexNotFound path) := by
  simp [load_tree, h]

/-- Witness for C9 on the empty filesystem. -/
theorem c9_missing_index_distinct_error_witness :
    load_tree (fun _ => none) "missing.json" =
      .error (.indexNotFound "missing.json") :=
  c9_missing_index_distinct_error (fun _ => none) "missing.json" rfl

/-- C10: page_span is a total function that never underflows: it
returns end_index - start_index + 1 when end_index is at least
start_index, and 0 otherwise, for every TreeNode including inverted
ranges. -/
theorem c10_page_span_total_safe (n : TreeNode) :
    (n.start_index ≤ n.end_index →
      n.page_span = n.end_index - n.start_index + 1) ∧
    (n.end_index < n.start_index → n.page_span = 0) := by
  constructor
  · intro h
    rw [TreeNode.page_span, if_pos h]
  · intro h
    rw [TreeNode.page_span, if_neg (by omega)]

/-- Witness for C10 at concrete nodes on both sides of the guard. -/
theorem c10_page_span_total_safe_witness :
    (TreeNode.new "x" 2 5).page_span = 5 - 2 + 1 ∧
    (TreeNode.new "y" 5 2).page_span = 0 :=
  ⟨(c10_page_span_total_safe (TreeNode.new "x" 2 5)).1 (by decide),
   (c10_page_span_total_safe (TreeNode.new "y" 5 2)).2 (by decide)⟩

theorem mem_insertByScoreDesc (r : SearchResult) :
    ∀ (l : List SearchResult) (y : SearchResult),
      y ∈ insertByScoreDesc r l → y = r ∨ y ∈ l
  | [], y, h => by simpa [insertByScoreDesc] using h
  | x :: xs, y, h => by
    rw [insertByScoreDesc] at h
    split at h
    · simpa using List.mem_cons.mp h
    · rcases List.mem_cons.mp h with rfl | h2
      · simp
      · rcases mem_insertByScoreDesc r xs y h2 with h3 | h3
        · exact Or.inl h3
        · simp [h3]

theorem mem_sortByScoreDesc :
    ∀ (l : List SearchResult) (y : SearchResult),
      y ∈ sortByScoreDesc l → y ∈ l
  | [], y, h => by simp [sortByScoreDesc] at h
  | x :: xs, y, h => by
    rw [sortByScoreDesc] at h
    rcases mem_insertByScoreDesc x (sortByScoreDesc xs) y h with rfl | h2
    · simp
    · simp [mem_sortByScoreDesc xs y h2]

theorem sorted_insertByScoreDesc (r : SearchResult) :
    ∀ (l : List SearchResult),
      l.Pairwise (fun a b => b.relevance.score ≤ a.relevance.score) →
      (insertByScoreDesc r l).Pairwise
        (fun a b => b.relevance.score ≤ a.relevance.score)
  | [], _ => by simp [insertByScoreDesc]
  | x :: xs, h => by
    rw [insertByScoreDesc]
    rcases List.pairwise_cons.mp h with ⟨hx, hxs⟩
    split
    · rename_i hc
      refine List.pairwise_cons.mpr ⟨?_, h⟩
      intro y hy
      rcases List.mem_cons.mp hy with rfl | hy2
      · exact hc
      · exact le_trans (hx y hy2) hc
    · rename_i hc
      have hlt : r.relevance.score < x.relevance.score := Nat.lt_of_not_le hc
      refine List.pairwise_cons.mpr ⟨?_, sorted_insertByScoreDesc r xs hxs⟩
      intro y hy
      rcases mem_insertByScoreDesc r xs y hy with rfl | hy2
      · exact Nat.le_of_lt hlt
      · exact hx y hy2

theorem sorted_sortByScoreDesc :
    ∀ (l : List SearchResult),
      (sortByScoreDesc l).Pairwise
        (fun a b => b.relevance.score ≤ a.relevance.score)
  | [] => by simp [sortByScoreDesc]
  | x :: xs => sorted_insertByScoreDesc x _ (sorted_sortByScoreDesc xs)

theorem filter_insertByScoreDesc (rel : Relevance) (r : SearchResult) :
    ∀ (l : List SearchResult),
      (insertByScoreDesc r l).filter (relEqB rel) =
        if relEqB rel r then r :: l.filter (relEqB rel)
        else l.filter (relEqB rel)
  | [] => by cases h : relEqB rel r <;> simp [insertByScoreDesc, List.filter, h]
  | x :: xs => by
    rw [insertByScoreDesc]
    split
    · rw [List.filter_cons]
    · rename_i hc
      rw [List.filter_cons, List.filter_cons, filter_insertByScoreDesc rel r xs]
      by_cases hpr : r.relevance = rel
      · by_cases hpx : x.relevance = rel
        · exact absurd (by rw [hpx, hpr] : x.relevance.score ≤ r.relevance.score) hc
        · simp [relEqB, hpr, hpx]
      · simp [relEqB, hpr]

theorem filter_sortByScoreDesc (rel : Relevance) :
    ∀ (l : List SearchResult),
      (sortByScoreDesc l).filter (relEqB rel) = l.filter (relEqB rel)
  | [] => rfl
  | x :: xs => by
    rw [sortByScoreDesc, filter_insertByScoreDesc rel x (sortByScoreDesc xs),
      filter_sortByScoreDesc rel xs, List.filter_cons]

/-- C4: the search pipeline truncates to top_k, sorts descending by
relevance score, is stable (per relevance level the output is a prefix
of the retained input in input order), keeps exactly the results at or
above the configured minimum relevance (the default minimum low keeps
everything, the default top_k is 10), and on the spec's example input
of relevances low, high, medium, high produces high, high, medium,
low with the two high entries in their original relative order. -/
theorem c4_search_ranking (opts : SearchOptions) (results : List SearchResult) :
    (postProcess opts results).length ≤ opts.top_k ∧
    (postProcess opts results).Pairwise
      (fun a b => b.relevance.score ≤ a.relevance.score) ∧
    (∀ rel : Relevance,
      (postProcess opts results).filter (relEqB rel) <+:
        (results.filter (keepB opts)).filter (relEqB rel)) ∧
    (∀ r ∈ postProcess opts results,
      opts.min_relevance.score ≤ r.relevance.score) ∧
    SearchOptions.default.top_k = 10 ∧
    SearchOptions.default.min_relevance = .low ∧
    results.filter (keepB SearchOptions.default) = results ∧
    postProcess SearchOptions.default
        [sr "r1" .low, sr "r2" .high, sr "r3" .medium, sr "r4" .high] =
      [sr "r2" .high, sr "r4" .high, sr "r3" .medium, sr "r1" .low] := by
  refine ⟨?_, ?_, ?_, ?_, rfl, rfl, ?_, rfl⟩
  · exact List.length_take_le _ _
  · exact (sorted_sortByScoreDesc _).sublist (List.take_sublist _ _)
  · intro rel
    have h1 : (postProcess opts results).filter (relEqB rel) <+:
        (sortByScoreDesc (results.filter (keepB opts))).filter (relEqB rel) := by
      exact List.IsPrefix.filter _ ( List.take_prefix _ _)
    rw [filter_sortByScoreDesc] at h1
    exact h1
  · intro r hr
    have h2 : r ∈ sortByScoreDesc (results.filter (keepB opts)) :=
      List.mem_of_mem_take hr
    have h3 : r ∈ results.filter (keepB opts) := mem_sortByScoreDesc _ r h2
    have h4 := List.of_mem_filter h3
    simpa [keepB] using h4
  · refine List.filter_eq_self.mpr ?_
    intro r _
    cases hrel : r.relevance <;>
      simp [keepB, SearchOptions.default, Relevance.score, hrel]

/-- Witness for C4 on the spec's example input: the retained high
entry meets the default minimum relevance. -/
theorem c4_search_ranking_witness :
    SearchOptions.default.min_relevance.score ≤ (sr "r2" .high).relevance.score :=
  (c4_search_ranking SearchOptions.default
      [sr "r1" .low, sr "r2" .high, sr "r3" .medium, sr "r4" .high]).2.2.2.1
    (sr "r2" .high) (by decide)

theorem page_number_bounds (doc : Document) (h : pagesSequential doc) :
    ∀ p ∈ doc.pages, 1 ≤ p.number ∧ p.number ≤ doc.pages.length := by
  intro p hp
  have hm : p.number ∈ doc.pages.map Page.number := List.mem_map_of_mem _ hp
  rw [h] at hm
  rcases List.mem_range'.mp hm with ⟨i, hi, he⟩
  omega

theorem content_range_outside_empty (doc : Document) (hseq : pagesSequential doc)
    (r : SearchResult)
    (hout : r.end_index = 0 ∨ doc.pages.length < r.start_index) :
    doc.content_range r.start_index r.end_index = "" := by
  unfold Document.content_range
  have hnil : doc.pages.filter
      (fun p => decide (r.start_index ≤ p.number ∧ p.number ≤ r.end_index)) = [] := by
    rw [List.filter_eq_nil_iff]
    intro p hp
    have hb := page_number_bounds doc hseq p hp
    simp only [decide_eq_true_iff, not_and, not_le]
    intro hs
    omega
  rw [hnil]
  rfl

/-- C7: search_with_content attaches to each surviving result exactly
the cleaned text of the document pages in the inclusive range
start_index to end_index (page-boundary marker lines removed, result
trimmed); a range lying entirely outside 1 to total pages yields the
empty content instead of an error, and the attachment step never fails
a call that the search pipeline itself answered; on the five-page
document, range 2 to 3 yields only the text of pages 2 and 3 with no
marker tokens. -/
theorem c7_content_slicing (doc : Document) (r : SearchResult)
    (results : List SearchResult) :
    attach_content doc results = results.map (attachOne doc) ∧
    (attachOne doc r).content =
      some (cleanIndexTags (doc.content_range r.start_index r.end_index)) ∧
    (pagesSequential doc →
      (r.end_index = 0 ∨ doc.pages.length < r.start_index) →
      (attachOne doc r).content = some "") ∧
    (∀ (jparse : JsonTextParse) (opts : SearchOptions) (response : String)
        (rs : List SearchResult),
      searchPipeline jparse opts response = .ok rs →
      searchWithContentPipeline jparse opts doc response =
        .ok (attach_content doc rs)) ∧
    cleanIndexTags (fivePageDoc.content_range 2 3) = "A2\n\nA3" ∧
    cleanIndexTags (fivePageDoc.content_range 7 9) = "" := by
  refine ⟨rfl, rfl, ?_, ?_, rfl, rfl⟩
  · intro hseq hout
    rw [show (attachOne doc r).content =
        some (cleanIndexTags (doc.content_range r.start_index r.end_index))
      from rfl]
    rw [content_range_outside_empty doc hseq r hout]
    rfl
  · intro jparse opts response rs h
    unfold searchWithContentPipeline
    rw [h]
    rfl

/-- Witness for C7: an out-of-range result on the five-page document
receives empty content, through the theorem itself. -/
theorem c7_content_slicing_witness :
    (attachOne fivePageDoc ⟨"x", 7, 9, .high, "r", none⟩).content = some "" :=
  (c7_content_slicing fivePageDoc ⟨"x", 7, 9, .high, "r", none⟩ []).2.2.1
    (by rfl) (by right; decide)

/-- C8: an unparsable collaborator response fails the whole search
call with the distinct LlmParse error whose message embeds the serde
error and an excerpt of the raw response truncated to 200 characters
(never partial results); by contrast a relevance string that is not
high or medium case-insensitively normalizes to low and never raises
an error, as the concrete banana-relevance response shows. -/
theorem c8_llm_parse_error (jparse : JsonTextParse) (response : String)
    (opts : SearchOptions) :
    (∀ e, parse_search_response jparse response = .error e →
      ∃ msg, e = .llmParse (llmParseMsg msg response)) ∧
    (∀ e, parse_search_response jparse response = .error e →
      searchPipeline jparse opts response = .error e) ∧
    (String.mk (response.toList.take 200)).length ≤ 200 ∧
    (∀ s : String, rustToLower s ≠ "high" → rustToLower s ≠ "medium" →
      Relevance.from_str s = .low) ∧
    parse_search_response okJsonParse "any response" =
      .ok [⟨"t", 1, 2, .low, "because", none⟩] := by
  refine ⟨?_, ?_, ?_, ?_, rfl⟩
  · intro e he
    unfold parse_search_response at he
    cases hj : (jparse (extract_json response)).bind decodeSearchResponse with
    | error msg =>
      rw [hj] at he
      refine ⟨msg, ?_⟩
      simpa using he.symm
    | ok parsed =>
      rw [hj] at he
      simp at he
  · intro e he
    unfold searchPipeline
    rw [he]
    rfl
  · show (response.toList.take 200).length ≤ 200
    exact List.length_take_le _ _
  · intro s h1 h2
    unfold Relevance.from_str
    split
    · rename_i heq
      exact absurd heq h1
    · rename_i heq
      exact absurd heq h2
    · rfl

/-- Witness for C8: the always-failing parser stub produces exactly
the LlmParse error with the bounded excerpt, and the banana relevance
string normalizes to low, both through the theorem itself. -/
theorem c8_llm_parse_error_witness :
    (∃ msg, PageIndexError.llmParse (llmParseMsg "boom" "resp") =
      .llmParse (llmParseMsg msg "resp")) ∧
    Relevance.from_str "banana" = .low :=
  ⟨(c8_llm_parse_error failJsonParse "resp" SearchOptions.default).1
      (.llmParse (llmParseMsg "boom" "resp")) rfl,
   (c8_llm_parse_error failJsonParse "resp" SearchOptions.default).2.2.2.1
      "banana" (by decide) (by decide)⟩

theorem decodeOptB_optB (v : Option String) (rest : List BVal) :
    decodeOptB (optB v ++ rest) = some (v, rest) := by
  cases v <;> rfl

mutual
theorem decodeNodeB_nodeToB : ∀ (t : TreeNode) (fuel : Nat) (rest : List BVal),
    heightN t ≤ fuel →
    decodeNodeB fuel (nodeToB t ++ rest) = some (t, rest)
  | .mk ti s a e ns sm id, fuel, rest, hf => by
    have h1 : heightL ns + 1 ≤ fuel := by
      simpa [heightN] using hf
    cases fuel with
    | zero => omega
    | succ f =>
      have h2 : heightL ns ≤ f := by omega
      simp only [nodeToB, List.cons_append, List.append_assoc, decodeNodeB,
        decodeOptB_optB, Option.some_bind, decodeListB_listToB ns f _ h2]
      rfl
theorem decodeListB_listToB : ∀ (l : TNList) (fuel : Nat) (rest : List BVal),
    heightL l ≤ fuel →
    decodeListB (decodeNodeB fuel) l.length (listToB l ++ rest) =
      some (l, rest)
  | .nil, fuel, rest, _ => rfl
  | .cons c tl, fuel, rest, hf => by
    have hc : heightN c ≤ fuel :=
      le_trans (Nat.le_max_left _ _) (by simpa [heightL] using hf)
    have ht : heightL tl ≤ fuel :=
      le_trans (Nat.le_max_right _ _) (by simpa [heightL] using hf)
    show decodeListB (decodeNodeB fuel) (tl.length + 1)
        ((nodeToB c ++ listToB tl) ++ rest) = some (.cons c tl, rest)
    rw [decodeListB]
    simp only [List.append_assoc]
    rw [decodeNodeB_nodeToB c fuel _ hc]
    simp only [Option.some_bind]
    rw [decodeListB_listToB tl fuel rest ht]
    rfl
end

mutual
theorem heightN_le_nodeToB_length : ∀ (t : TreeNode),
    heightN t ≤ (nodeToB t).length
  | .mk ti s a e ns sm id => by
    have h := heightL_le_listToB_length ns
    simp only [heightN, nodeToB, List.length_cons, List.length_append]
    cases s <;> cases sm <;> cases id <;> simp [optB] <;> omega
theorem heightL_le_listToB_length : ∀ (l : TNList),
    heightL l ≤ (listToB l).length
  | .nil => by simp [heightL, listToB]
  | .cons c tl => by
    have h1 := heightN_le_nodeToB_length c
    have h2 := heightL_le_listToB_length tl
    simp only [heightL, listToB, List.length_append]
    exact Nat.max_le.mpr ⟨le_trans h1 (by omega), le_trans h2 (by omega)⟩
end

theorem decodeTreeB_treeToB (dt : DocumentTree) :
    decodeTreeB (treeToB dt) = some dt := by
  obtain ⟨name, ns, tp, desc⟩ := dt
  rw [treeToB, decodeTreeB]
  have hfuel : heightL ns ≤ (listToB ns ++ .nat tp :: optB desc).length := by
    have := heightL_le_listToB_length ns
    simp only [List.length_append]
    omega
  rw [decodeListB_listToB ns _ _ hfuel]
  simp only [Option.some_bind]
  cases desc <;> rfl

mutual
theorem jsonToNodeF_nodeToJson : ∀ (t : TreeNode) (fuel : Nat),
    heightN t ≤ fuel →
    jsonToNodeF fuel (nodeToJson t) = .ok t
  | .mk ti s a e ns sm id, fuel, hf => by
    have h1 : heightL ns + 1 ≤ fuel := by
      simpa [heightN] using hf
    cases fuel with
    | zero => omega
    | succ f =>
      have h2 : heightL ns ≤ f := by omega
      have hns := jsonListToNodesF_nodesToJsonList ns f h2
      cases ns with
      | nil =>
        cases s <;> cases sm <;> cases id <;>
          simp [nodeToJson, jsonToNodeF, optField, JsonFields.find,
            requireStr, requireNat, optStr, Bind.bind, Except.bind]
      | cons c tl =>
        cases s <;> cases sm <;> cases id <;>
          simp [nodeToJson, jsonToNodeF, optField, JsonFields.find,
            requireStr, requireNat, optStr, Bind.bind, Except.bind, hns]
theorem jsonListToNodesF_nodesToJsonList : ∀ (l : TNList) (fuel : Nat),
    heightL l ≤ fuel →
    jsonListToNodesF (jsonToNodeF fuel) (nodesToJsonList l) = .ok l
  | .nil, _, _ => rfl
  | .cons c tl, fuel, hf => by
    have hc : heightN c ≤ fuel :=
      le_trans (Nat.le_max_left _ _) (by simpa [heightL] using hf)
    have ht : heightL tl ≤ fuel :=
      le_trans (Nat.le_max_right _ _) (by simpa [heightL] using hf)
    simp [nodesToJsonList, jsonListToNodesF, Bind.bind, Except.bind,
      jsonToNodeF_nodeToJson c fuel hc,
      jsonListToNodesF_nodesToJsonList tl fuel ht]
end

mutual
theorem heightN_le_jsonSize : ∀ (t : TreeNode),
    heightN t ≤ jsonSize (nodeToJson t)
  | .mk ti s a e ns sm id => by
    have h := heightL_le_jsonListSize ns
    cases ns with
    | nil =>
      simp only [heightN, heightL, nodeToJson, jsonSize]
      omega
    | cons c tl =>
      simp only [nodesToJsonList, jsonListSize] at h
      cases s <;> cases sm <;> cases id <;>
        simp only [heightN, nodeToJson, optField, jsonSize, jsonFieldsSize,
          jsonListSize] <;>
        omega
theorem heightL_le_jsonListSize : ∀ (l : TNList),
    heightL l ≤ jsonListSize (nodesToJsonList l)
  | .nil => by simp [heightL, nodesToJsonList, jsonListSize]
  | .cons c tl => by
    have h1 := heightN_le_jsonSize c
    have h2 := heightL_le_jsonListSize tl
    simp only [heightL, nodesToJsonList, jsonListSize]
    exact Nat.max_le.mpr ⟨le_trans h1 (by omega), le_trans h2 (by omega)⟩
end

theorem jsonToTree_treeToJson (dt : DocumentTree) :
    jsonToTree (treeToJson dt) = .ok dt := by
  obtain ⟨name, ns, tp, desc⟩ := dt
  have h := jsonListToNodesF_nodesToJsonList ns
    (jsonListSize (nodesToJsonList ns)) (heightL_le_jsonListSize ns)
  cases desc <;>
    simp [treeToJson, jsonToTree, optField, JsonFields.find, requireStr,
      requireNat, optStr, Bind.bind, Except.bind, h]

/-- C3: for every DocumentTree, every starting filesystem and every
path (whether its suffix selects JSON, the binary format, or is
unrecognized and defaults to JSON), loading right after saving returns
a tree equal to the saved one in every field, including absent
optional fields and empty children lists. -/
theorem c3_save_load_round_trip (fs : FileSystem) (t : DocumentTree)
    (path : String) :
    load_tree (save_tree fs t path) path = .ok t := by
  cases hfmt : SaveFormat.from_path path with
  | json =>
    simp [load_tree, save_tree, hfmt, saveData, loadData,
      jsonToTree_treeToJson]
  | bincode =>
    simp [load_tree, save_tree, hfmt, saveData, loadData,
      decodeTreeB_treeToB]
